import Mathlib

/-!
# drone-sftp-cache: the cache plugin (`plugin.go`)

A shallow embedding of `plugin.go` and the properties of its backend selector,
its cache-key derivation and its rebuild/restore control flow.

Conventions of the embedding:

* a Go `string` is a Lean `String` (the text it holds as UTF-8);
* a Go `error` is an `Option GoError`, `none` standing for `nil`;
* a Go `int` is an `Int` (no value of this program comes near the word size).
-/

namespace DroneCache

/-! ## Definitions -/

/-- Go `error` values, told apart by their message (`errors.New(msg)`). -/
structure GoError where
  msg : String
deriving DecidableEq, Repr

/-- The body of `for index, value := range options` in `oneAndOnlyOne`, run on
the entries not yet visited; `index` is the position of the first of them and
`foundIndex`, `foundValue` are the two local variables. The result is `none`
when the loop leaves the function through its `return 0, "", errors.New(...)`,
and otherwise the two variables as they stand after the last entry. -/
def oneAndOnlyOneLoop :
    List String → Nat → Int → String → Option (Int × String)
  | [], _, foundIndex, foundValue => some (foundIndex, foundValue)
  | value :: rest, index, foundIndex, foundValue =>
    if value ≠ "" then
      if foundIndex ≠ -1 then
        none
      else
        oneAndOnlyOneLoop rest (index + 1) (index : Int) value
    else
      oneAndOnlyOneLoop rest (index + 1) foundIndex foundValue

/-- The function `oneAndOnlyOne(options []string) (int, string, error)`. -/
def oneAndOnlyOne (options : List String) : Int × String × Option GoError :=
  match oneAndOnlyOneLoop options 0 (-1) "" with
  | none => (0, "", some ⟨"You can only configure one cache backend."⟩)
  | some (foundIndex, foundValue) =>
    if foundIndex = -1 then
      (0, "", some ⟨"No configuration for cache backend found."⟩)
    else
      (foundIndex, foundValue, none)

/-- A byte, as a natural number below `2^8`. -/
abbrev Byte := Fin 256

/-- The byte holding `n % 2^8`. -/
def byte (n : Nat) : Byte := ⟨n % 256, Nat.mod_lt n (by decide)⟩

/-- The UTF-8 encoding of one character: the bytes a Go string holds for it. -/
def utf8EncodeChar (c : Char) : List Byte :=
  let v := c.toNat
  if v < 0x80 then
    [byte v]
  else if v < 0x800 then
    [byte (0xC0 + v / 64), byte (0x80 + v % 64)]
  else if v < 0x10000 then
    [byte (0xE0 + v / 4096), byte (0x80 + v / 64 % 64), byte (0x80 + v % 64)]
  else
    [byte (0xF0 + v / 262144), byte (0x80 + v / 4096 % 64), byte (0x80 + v / 64 % 64),
      byte (0x80 + v % 64)]

/-- The bytes of a Go string. -/
def stringBytes (s : String) : List Byte :=
  s.data.flatMap utf8EncodeChar

/-- Per-round shift amounts of MD5 (RFC 1321). -/
def md5Shifts : List Nat :=
  [7, 12, 17, 22, 7, 12, 17, 22, 7, 12, 17, 22, 7, 12, 17, 22,
   5, 9, 14, 20, 5, 9, 14, 20, 5, 9, 14, 20, 5, 9, 14, 20,
   4, 11, 16, 23, 4, 11, 16, 23, 4, 11, 16, 23, 4, 11, 16, 23,
   6, 10, 15, 21, 6, 10, 15, 21, 6, 10, 15, 21, 6, 10, 15, 21]

/-- The sine table of MD5 (RFC 1321). -/
def md5Table : List Nat :=
  [0xd76aa478, 0xe8c7b756, 0x242070db, 0xc1bdceee, 0xf57c0faf, 0x4787c62a, 0xa8304613, 0xfd469501,
   0x698098d8, 0x8b44f7af, 0xffff5bb1, 0x895cd7be, 0x6b901122, 0xfd987193, 0xa679438e, 0x49b40821,
   0xf61e2562, 0xc040b340, 0x265e5a51, 0xe9b6c7aa, 0xd62f105d, 0x02441453, 0xd8a1e681, 0xe7d3fbc8,
   0x21e1cde6, 0xc33707d6, 0xf4d50d87, 0x455a14ed, 0xa9e3e905, 0xfcefa3f8, 0x676f02d9, 0x8d2a4c8a,
   0xfffa3942, 0x8771f681, 0x6d9d6122, 0xfde5380c, 0xa4beea44, 0x4bdecfa9, 0xf6bb4b60, 0xbebfbc70,
   0x289b7ec6, 0xeaa127fa, 0xd4ef3085, 0x04881d05, 0xd9d4d039, 0xe6db99e5, 0x1fa27cf8, 0xc4ac5665,
   0xf4292244, 0x432aff97, 0xab9423a7, 0xfc93a039, 0x655b59c3, 0x8f0ccc92, 0xffeff47d, 0x85845dd1,
   0x6fa87e4f, 0xfe2ce6e0, 0xa3014314, 0x4e0811a1, 0xf7537e82, 0xbd3af235, 0x2ad7d2bb, 0xeb86d391]

/-- Bitwise complement of a 32-bit word. -/
def not32 (x : Nat) : Nat := (2 ^ 32 - 1) - x % 2 ^ 32

/-- Left rotation of a 32-bit word. -/
def rotl32 (x c : Nat) : Nat :=
  ((x % 2 ^ 32) <<< c ||| (x % 2 ^ 32) >>> (32 - c)) % 2 ^ 32

/-- The message of MD5 after padding: a `0x80` byte, zero bytes up to 56 modulo
64, then the bit length on 8 bytes, least significant first. -/
def md5Pad (msg : List Byte) : List Byte :=
  let zeros := (55 + 64 - msg.length % 64) % 64
  let bits := (8 * msg.length) % 2 ^ 64
  msg ++ [byte 0x80] ++ List.replicate zeros (byte 0)
    ++ (List.range 8).map (fun k => byte (bits / 2 ^ (8 * k)))

/-- The 32-bit word number `g` of a 64-byte block, least significant byte first. -/
def md5Word (block : List Byte) (g : Nat) : Nat :=
  (block.getD (4 * g) 0).val + 2 ^ 8 * (block.getD (4 * g + 1) 0).val
    + 2 ^ 16 * (block.getD (4 * g + 2) 0).val + 2 ^ 24 * (block.getD (4 * g + 3) 0).val

/-- One of the 64 steps of the MD5 compression function. -/
def md5Step (block : List Byte) (s : Nat × Nat × Nat × Nat) (i : Nat) :
    Nat × Nat × Nat × Nat :=
  let (a, b, c, d) := s
  let f :=
    if i < 16 then (b &&& c) ||| (not32 b &&& d)
    else if i < 32 then (d &&& b) ||| (not32 d &&& c)
    else if i < 48 then b ^^^ c ^^^ d
    else c ^^^ (b ||| not32 d)
  let g :=
    if i < 16 then i
    else if i < 32 then (5 * i + 1) % 16
    else if i < 48 then (3 * i + 5) % 16
    else (7 * i) % 16
  let x := (f + a + md5Table.getD i 0 + md5Word block g) % 2 ^ 32
  (d, (b + rotl32 x (md5Shifts.getD i 0)) % 2 ^ 32, b, c)

/-- The MD5 compression function: the state after one 64-byte block. -/
def md5Block (s : Nat × Nat × Nat × Nat) (block : List Byte) : Nat × Nat × Nat × Nat :=
  let (a, b, c, d) := (List.range 64).foldl (md5Step block) s
  ((s.1 + a) % 2 ^ 32, (s.2.1 + b) % 2 ^ 32, (s.2.2.1 + c) % 2 ^ 32, (s.2.2.2 + d) % 2 ^ 32)

/-- The four bytes of a 32-bit word, least significant first. -/
def word32Bytes (w : Nat) : List Byte :=
  [byte w, byte (w / 2 ^ 8), byte (w / 2 ^ 16), byte (w / 2 ^ 24)]

/-- The digest `md5.New()` yields from `Sum(nil)` after the bytes `msg` were
written to it: MD5 as RFC 1321 defines it, which `crypto/md5` implements. -/
def md5Sum (msg : List Byte) : List Byte :=
  let padded := md5Pad msg
  let (a, b, c, d) :=
    (List.range (padded.length / 64)).foldl
      (fun s k => md5Block s ((padded.drop (64 * k)).take 64))
      (0x67452301, 0xefcdab89, 0x98badcfe, 0x10325476)
  word32Bytes a ++ word32Bytes b ++ word32Bytes c ++ word32Bytes d

/-- The digits `fmt` uses for the verb `%x`. -/
def ldigits : List Char := "0123456789abcdef".data

/-- The two lowercase hexadecimal digits of a byte. -/
def hexByte (b : Byte) : List Char :=
  [ldigits.getD (b.val / 16) '0', ldigits.getD (b.val % 16) '0']

/-- The string `fmt.Sprintf("%x", bs)` for a byte slice `bs`. -/
def sprintfHex (bs : List Byte) : String :=
  String.mk (bs.flatMap hexByte)

/-- The function `hasher` over an arbitrary digest in place of MD5: each part is
written to the hash in turn, and the digest of what was written is rendered
with `%x`. -/
def hasherWith (sum : List Byte → List Byte) (mount branch : String) : String :=
  let parts := [mount, branch]
  let h := parts.foldl (fun h part => h ++ stringBytes part) []
  sprintfHex (sum h)

/-- The function `hasher(mount, branch string) string`. -/
def hasher (mount branch : String) : String :=
  hasherWith md5Sum mount branch

/-- The inner loop of the `..` case of `filepath.Clean`, after its `out.w--`:
`for out.w > dotdot && !os.IsPathSeparator(out.index(out.w)) { out.w-- }`.
The result is the final `out.w`. -/
def cleanBacktrack (out : List Char) (dotdot : Nat) : Nat → Nat
  | 0 => 0
  | w + 1 =>
    if w + 1 > dotdot ∧ out.getD (w + 1) '/' ≠ '/' then cleanBacktrack out dotdot w
    else w + 1

/-- The main loop `for r < n` of `filepath.Clean` (Unix): `rest` is `path[r:]`,
`out` the buffer written so far (`out.w` is its length). Every turn reads at
least one byte, so a `fuel` of `len(path)` turns is never used up. -/
def cleanLoop (rooted : Bool) : Nat → List Char → List Char → Nat → List Char
  | 0, _, out, _ => out
  | _ + 1, [], out, _ => out
  | fuel + 1, c :: rest, out, dotdot =>
    if c = '/' then
      -- empty path element
      cleanLoop rooted fuel rest out dotdot
    else if c = '.' ∧ (rest = [] ∨ rest.head? = some '/') then
      -- . element
      cleanLoop rooted fuel rest out dotdot
    else if c = '.' ∧ rest.head? = some '.'
        ∧ (rest.tail = [] ∨ rest.tail.head? = some '/') then
      -- .. element: remove to last separator
      if out.length > dotdot then
        cleanLoop rooted fuel rest.tail
          (out.take (cleanBacktrack out dotdot (out.length - 1))) dotdot
      else if !rooted then
        let out1 := if out.length > 0 then out ++ ['/'] else out
        let out2 := out1 ++ ['.', '.']
        cleanLoop rooted fuel rest.tail out2 out2.length
      else
        cleanLoop rooted fuel rest.tail out dotdot
    else
      -- real path element: add slash if needed, then copy the element
      let out1 :=
        if (rooted && out.length != 1) || (!rooted && out.length != 0) then out ++ ['/']
        else out
      let elem := (c :: rest).takeWhile (fun x => x ≠ '/')
      cleanLoop rooted fuel ((c :: rest).dropWhile (fun x => x ≠ '/')) (out1 ++ elem) dotdot

/-- The function `filepath.Clean` of the Go standard library, on Unix (no volume
name, `/` the only separator). -/
def filepathClean (path : String) : String :=
  if path = "" then "."
  else
    let rooted := path.data.head? = some '/'
    let out :=
      if rooted then cleanLoop true path.data.length path.data.tail ['/'] 1
      else cleanLoop false path.data.length path.data [] 0
    if out.length = 0 then "." else String.mk out

/-- The function `filepath.Join` of the Go standard library, on Unix: the
elements from the first non-empty one on, joined by `/` and cleaned. -/
def filepathJoin : List String → String
  | [] => ""
  | e :: rest =>
    if e ≠ "" then filepathClean ("/".intercalate (e :: rest))
    else filepathJoin rest

/-- The struct `Plugin`. -/
structure Plugin where
  Rebuild : Bool
  Restore : Bool
  Mount : List String
  Repo : String
  Branch : String
  Default : String
  Path : String
  SFTP : String
  S3 : String
deriving DecidableEq, Repr

/-- The calls `plugin.go` makes into its collaborators. -/
inductive Call where
  /-- The call `sftp.FromJSON(cacheJSON)`. -/
  | sftpFromJSON (json : String)
  /-- The call `s3.FromJSON(cacheJSON)`. -/
  | s3FromJSON (json : String)
  /-- The call `cache.RebuildCmd(c, mount, path)`: the store of a mount. -/
  | rebuildCmd (mount path : String)
  /-- The call `cache.RestoreCmd(c, path, mount)`: the fetch of a mount. -/
  | restoreCmd (path mount : String)
  /-- The call `cache.(io.Closer).Close()`: the release of the backend. -/
  | close
  /-- The call `logrus.Println(err)`. -/
  | logPrintln (e : GoError)
deriving DecidableEq, Repr

/-- A call together with the error it returned. -/
structure Event where
  call : Call
  err : Option GoError
deriving DecidableEq, Repr

/-- The collaborators of `plugin.go`, which lie outside the repository: the two
backend constructors and the operations on a constructed backend, whose state
is a value of `σ` threaded through the calls. -/
structure Env (σ : Type) where
  sftpFromJSON : String → Except GoError σ
  s3FromJSON : String → Except GoError σ
  rebuildCmd : σ → String → String → σ × Option GoError
  restoreCmd : σ → String → String → σ × Option GoError
  close : σ → σ × Option GoError

/-- What a phase leaves behind: the backend state, the calls it made in order,
and the error it returned. -/
structure PhaseResult (σ : Type) where
  cache : σ
  trace : List Event
  err : Option GoError

/-- The loop `for _, mount := range p.Mount` of `ProcessRebuild`, on the mounts
not yet visited. (The `log.Printf` line is not part of the model.) -/
def processRebuildLoop {σ : Type} (env : Env σ) (p : Plugin) :
    List String → σ → List Event → PhaseResult σ
  | [], c, trace => ⟨c, trace, none⟩
  | mount :: rest, c, trace =>
    let hash := hasher mount p.Branch
    let path := filepathJoin [p.Path, p.Repo, hash]
    let (c1, err) := env.rebuildCmd c mount path
    let trace1 := trace ++ [⟨Call.rebuildCmd mount path, err⟩]
    if err ≠ none then ⟨c1, trace1, err⟩
    else processRebuildLoop env p rest c1 trace1

/-- The method `ProcessRebuild(c cache.Cache) error`. -/
def ProcessRebuild {σ : Type} (env : Env σ) (p : Plugin) (c : σ) : PhaseResult σ :=
  processRebuildLoop env p p.Mount c []

/-- The loop `for _, mount := range p.Mount` of `ProcessRestore`, on the mounts
not yet visited. (The `log.Printf` line is not part of the model; the fallback
to the default branch is commented out in the source.) -/
def processRestoreLoop {σ : Type} (env : Env σ) (p : Plugin) :
    List String → σ → List Event → PhaseResult σ
  | [], c, trace => ⟨c, trace, none⟩
  | mount :: rest, c, trace =>
    let hash := hasher mount p.Branch
    let path := filepathJoin [p.Path, p.Repo, hash]
    let (c1, err) := env.restoreCmd c path mount
    let trace1 := trace ++ [⟨Call.restoreCmd path mount, err⟩]
    if err ≠ none then ⟨c1, trace1, err⟩
    else processRestoreLoop env p rest c1 trace1

/-- The method `ProcessRestore(c cache.Cache) error`. -/
def ProcessRestore {σ : Type} (env : Env σ) (p : Plugin) (c : σ) : PhaseResult σ :=
  processRestoreLoop env p p.Mount c []

/-- How a call of `Exec` ends: it returns an error value (`none` for `nil`), or
it panics (the type assertion `cache.(io.Closer)` on a nil `cache`). -/
inductive Outcome where
  | returned (err : Option GoError)
  | panicked
deriving DecidableEq, Repr

/-- The outcome of `Exec` and the calls it made, in order. -/
structure ExecResult where
  outcome : Outcome
  trace : List Event
deriving DecidableEq, Repr

/-- The part of `Exec` from `defer cache.(io.Closer).Close()` on, for a
constructed backend `c`; `trace0` holds the calls made so far. The variable
`err` is `nil` when this part starts. The deferred `Close` runs last and its
result is dropped. (The timing lines are not part of the model.) -/
def execPhases {σ : Type} (env : Env σ) (p : Plugin) (c : σ) (trace0 : List Event) :
    ExecResult :=
  let err0 : Option GoError := none
  let (c1, trace1, err1) :=
    if p.Rebuild then
      let r := ProcessRebuild env p c
      (r.cache, trace0 ++ r.trace, r.err)
    else (c, trace0, err0)
  let (c2, trace2, err2) :=
    if p.Restore then
      let r := ProcessRestore env p c1
      (r.cache, trace1 ++ r.trace, r.err)
    else (c1, trace1, err1)
  let trace3 :=
    match err2 with
    | some e => trace2 ++ [⟨Call.logPrintln e, none⟩]
    | none => trace2
  ⟨Outcome.returned none, trace3 ++ [⟨Call.close, (env.close c2).2⟩]⟩

/-- The method `Exec() error`. -/
def Exec {σ : Type} (env : Env σ) (p : Plugin) : ExecResult :=
  let (cacheIndex, cacheJSON, err) := oneAndOnlyOne [p.SFTP, p.S3]
  if err ≠ none then ⟨Outcome.returned err, []⟩
  else if cacheIndex = 0 then
    match env.sftpFromJSON cacheJSON with
    | Except.error e =>
      ⟨Outcome.returned (some e), [⟨Call.sftpFromJSON cacheJSON, some e⟩]⟩
    | Except.ok c => execPhases env p c [⟨Call.sftpFromJSON cacheJSON, none⟩]
  else if cacheIndex = 1 then
    match env.s3FromJSON cacheJSON with
    | Except.error e =>
      ⟨Outcome.returned (some e), [⟨Call.s3FromJSON cacheJSON, some e⟩]⟩
    | Except.ok c => execPhases env p c [⟨Call.s3FromJSON cacheJSON, none⟩]
  else
    -- no case of the switch is taken: `cache` is nil
    ⟨Outcome.panicked, []⟩

/-- A backend for the examples: its state counts the calls made on it, and
the store and the fetch of the mount `B` fail. -/
def failOnB : Env Nat where
  sftpFromJSON := fun _ => Except.ok 0
  s3FromJSON := fun _ => Except.ok 0
  rebuildCmd := fun n mount _ => (n + 1, if mount = "B" then some ⟨"store failed"⟩ else none)
  restoreCmd := fun n _ mount => (n + 1, if mount = "B" then some ⟨"not found"⟩ else none)
  close := fun n => (n, none)

/-- A configuration for the examples: the mounts `A`, `B`, `C` of the repository
`acme/app` on the branch `main`, cached under `/cache` on an SFTP backend. -/
def examplePlugin (rebuild restore : Bool) : Plugin where
  Rebuild := rebuild
  Restore := restore
  Mount := ["A", "B", "C"]
  Repo := "acme/app"
  Branch := "main"
  Default := "master"
  Path := "/cache"
  SFTP := "sftp-config"
  S3 := ""

/-- The configuration of the scenario of the specification: the one mount
`./node_modules` of the repository `acme/app` on the branch `main`, cached
under `/cache`. -/
def scenarioPlugin : Plugin where
  Rebuild := true
  Restore := true
  Mount := ["./node_modules"]
  Repo := "acme/app"
  Branch := "main"
  Default := "master"
  Path := "/cache"
  SFTP := "sftp-config"
  S3 := ""

/-! ## The backend selector -/

/-- Entries that are all empty leave the two loop variables as they were. -/
theorem oneAndOnlyOneLoop_of_all_empty (l : List String) (index : Nat)
    (fi : Int) (fv : String) (h : ∀ v ∈ l, v = "") :
    oneAndOnlyOneLoop l index fi fv = some (fi, fv) := by
  induction l generalizing index with
  | nil => rfl
  | cons v rest ih =>
    have hv : v = "" := h v (List.mem_cons_self _ _)
    have hrest : ∀ w ∈ rest, w = "" := fun w hw => h w (List.mem_cons_of_mem _ hw)
    simp [oneAndOnlyOneLoop, hv, ih (index + 1) hrest]

/-- Once an entry was found, any further non-empty entry ends the loop with
the early return. -/
theorem oneAndOnlyOneLoop_found (l : List String) (index : Nat)
    (fi : Int) (fv : String) (hfi : fi ≠ -1) :
    oneAndOnlyOneLoop l index fi fv
      = if ∀ v ∈ l, v = "" then some (fi, fv) else none := by
  induction l generalizing index with
  | nil => simp [oneAndOnlyOneLoop]
  | cons v rest ih =>
    by_cases hv : v = ""
    · simp [oneAndOnlyOneLoop, hv, ih (index + 1)]
    · simp [oneAndOnlyOneLoop, hv, hfi]

/-- Leading empty entries only advance the index. -/
theorem oneAndOnlyOneLoop_skip (pre l : List String) (index : Nat)
    (fi : Int) (fv : String) (h : ∀ v ∈ pre, v = "") :
    oneAndOnlyOneLoop (pre ++ l) index fi fv
      = oneAndOnlyOneLoop l (index + pre.length) fi fv := by
  induction pre generalizing index with
  | nil => simp
  | cons v rest ih =>
    have hv : v = "" := h v (List.mem_cons_self _ _)
    have hrest : ∀ w ∈ rest, w = "" := fun w hw => h w (List.mem_cons_of_mem _ hw)
    have hstep : oneAndOnlyOneLoop ("" :: (rest ++ l)) index fi fv
        = oneAndOnlyOneLoop (rest ++ l) (index + 1) fi fv := by
      simp [oneAndOnlyOneLoop]
    subst hv
    rw [List.cons_append, hstep, ih (index + 1) hrest, List.length_cons]
    congr 1
    omega

/-- The loop started with nothing found, on a list whose first non-empty entry
is `v`, at position `pre.length`. -/
theorem oneAndOnlyOneLoop_first (pre post : List String) (v : String) (fv : String)
    (hpre : ∀ w ∈ pre, w = "") (hv : v ≠ "") :
    oneAndOnlyOneLoop (pre ++ v :: post) 0 (-1) fv
      = if ∀ w ∈ post, w = "" then some ((pre.length : Int), v) else none := by
  rw [oneAndOnlyOneLoop_skip pre _ 0 (-1) fv hpre]
  simp only [oneAndOnlyOneLoop, hv, ne_eq, not_false_eq_true, if_true, not_true_eq_false,
    if_false, Nat.zero_add]
  rw [oneAndOnlyOneLoop_found post _ _ v (by omega)]

/-- Every list is all empty, or splits at its first non-empty entry. -/
theorem exists_first_nonempty (l : List String) :
    (∀ v ∈ l, v = "") ∨
      ∃ pre v post, l = pre ++ v :: post ∧ (∀ w ∈ pre, w = "") ∧ v ≠ "" := by
  induction l with
  | nil => left; simp
  | cons a rest ih =>
    by_cases ha : a = ""
    · rcases ih with h | ⟨pre, v, post, rfl, hpre, hv⟩
      · left
        intro w hw
        rcases List.mem_cons.1 hw with rfl | hw
        · exact ha
        · exact h w hw
      · right
        refine ⟨a :: pre, v, post, rfl, ?_, hv⟩
        intro w hw
        rcases List.mem_cons.1 hw with rfl | hw
        · exact ha
        · exact hpre w hw
    · right
      exact ⟨[], a, rest, rfl, by simp, ha⟩

/-- The three outcomes of `oneAndOnlyOne`, by the shape of its argument. -/
theorem oneAndOnlyOne_of_all_empty (l : List String) (h : ∀ v ∈ l, v = "") :
    oneAndOnlyOne l = (0, "", some ⟨"No configuration for cache backend found."⟩) := by
  simp [oneAndOnlyOne, oneAndOnlyOneLoop_of_all_empty l 0 (-1) "" h]

theorem oneAndOnlyOne_of_single (pre post : List String) (v : String)
    (hpre : ∀ w ∈ pre, w = "") (hv : v ≠ "") (hpost : ∀ w ∈ post, w = "") :
    oneAndOnlyOne (pre ++ v :: post) = ((pre.length : Int), v, none) := by
  have hne : ¬ ((pre.length : Int) = -1) := by omega
  simp only [oneAndOnlyOne, oneAndOnlyOneLoop_first pre post v "" hpre hv]
  rw [if_pos hpost]
  simp only [hne, if_false]

theorem oneAndOnlyOne_of_second (pre post : List String) (v : String)
    (hpre : ∀ w ∈ pre, w = "") (hv : v ≠ "") (hpost : ¬ ∀ w ∈ post, w = "") :
    oneAndOnlyOne (pre ++ v :: post)
      = (0, "", some ⟨"You can only configure one cache backend."⟩) := by
  simp only [oneAndOnlyOne, oneAndOnlyOneLoop_first pre post v "" hpre hv]
  rw [if_neg hpost]

/-- Reading an entry of `pre ++ v :: post` by its position. -/
theorem getElem_split_left (pre post : List String) (v : String) (j : Nat)
    (hj : j < pre.length) (hj2 : j < (pre ++ v :: post).length) :
    (pre ++ v :: post)[j] = pre[j] := by
  rw [List.getElem_append_left hj]

theorem getElem_split_mid (pre post : List String) (v : String)
    (h : pre.length < (pre ++ v :: post).length) :
    (pre ++ v :: post)[pre.length] = v := by
  rw [List.getElem_append_right (Nat.le_refl _)]
  simp

theorem getElem_split_right (pre post : List String) (v : String) (k : Nat)
    (hk : k < post.length) (h : pre.length + 1 + k < (pre ++ v :: post).length) :
    (pre ++ v :: post)[pre.length + 1 + k] = post[k] := by
  rw [List.getElem_append_right (by omega)]
  have e : pre.length + 1 + k - pre.length = k + 1 := by omega
  simp [e]

/-- A list with one marked non-empty entry and empty entries elsewhere splits
around that entry. -/
theorem split_of_unique (l : List String) (i : Nat) (hi : i < l.length)
    (hothers : ∀ (j : Nat) (hj : j < l.length), j ≠ i → l[j] = "") :
    ∃ pre post, l = pre ++ l[i] :: post ∧ pre.length = i ∧
      (∀ w ∈ pre, w = "") ∧ (∀ w ∈ post, w = "") := by
  refine ⟨l.take i, l.drop (i + 1), ?_, ?_, ?_, ?_⟩
  · rw [← List.drop_eq_getElem_cons hi, List.take_append_drop]
  · rw [List.length_take]
    omega
  · intro w hw
    obtain ⟨k, hk, rfl⟩ := List.getElem_of_mem hw
    rw [List.length_take] at hk
    rw [List.getElem_take]
    exact hothers k (by omega) (by omega)
  · intro w hw
    obtain ⟨k, hk, rfl⟩ := List.getElem_of_mem hw
    rw [List.length_drop] at hk
    rw [List.getElem_drop]
    exact hothers (i + 1 + k) (by omega) (by omega)

/-- C1. When exactly one entry of the list is non-empty, `oneAndOnlyOne`
returns no error, the index of that entry and its value unchanged; and
whenever it returns no error, exactly one entry is non-empty (and it is the
one returned). -/
theorem oneAndOnlyOne_exactly_one (options : List String) :
    (∀ (i : Nat) (hi : i < options.length), options[i] ≠ "" →
        (∀ (j : Nat) (hj : j < options.length), j ≠ i → options[j] = "") →
        oneAndOnlyOne options = ((i : Int), options[i], none)) ∧
    ((oneAndOnlyOne options).2.2 = none →
        ∃ (i : Nat) (hi : i < options.length), options[i] ≠ "" ∧
          (∀ (j : Nat) (hj : j < options.length), j ≠ i → options[j] = "") ∧
          oneAndOnlyOne options = ((i : Int), options[i], none)) := by
  constructor
  · intro i hi hne hothers
    obtain ⟨pre, post, hsplit, hlen, hpre, hpost⟩ := split_of_unique options i hi hothers
    have h := oneAndOnlyOne_of_single pre post options[i] hpre hne hpost
    rw [← hsplit, hlen] at h
    exact h
  · intro hnil
    rcases exists_first_nonempty options with hall | ⟨pre, v, post, hsplit, hpre, hv⟩
    · rw [oneAndOnlyOne_of_all_empty options hall] at hnil
      simp at hnil
    · subst hsplit
      by_cases hpost : ∀ w ∈ post, w = ""
      · have hlt : pre.length < (pre ++ v :: post).length := by
          rw [List.length_append, List.length_cons]
          omega
        have hmid := getElem_split_mid pre post v hlt
        refine ⟨pre.length, hlt, ?_, ?_, ?_⟩
        · rw [hmid]
          exact hv
        · intro j hj hji
          rcases Nat.lt_or_gt_of_ne hji with hlt2 | hgt
          · rw [getElem_split_left pre post v j hlt2 hj]
            exact hpre _ (List.getElem_mem _)
          · have hjlen : j < pre.length + (post.length + 1) := by
              rw [List.length_append, List.length_cons] at hj
              exact hj
            have hk : j - pre.length - 1 < post.length := by omega
            have hjeq : j = pre.length + 1 + (j - pre.length - 1) := by omega
            have hidx := getElem_split_right pre post v (j - pre.length - 1) hk
              (by omega)
            have hget : (pre ++ v :: post)[j] = post[j - pre.length - 1] := by
              rw [← hidx]
              congr 1
            rw [hget]
            exact hpost _ (List.getElem_mem _)
        · rw [hmid]
          exact oneAndOnlyOne_of_single pre post v hpre hv hpost
      · rw [oneAndOnlyOne_of_second pre post v hpre hv hpost] at hnil
        simp at hnil

/-- C1, at the list `["", "s3://bucket", ""]`: index 1 and its value. -/
theorem oneAndOnlyOne_exactly_one_witness :
    oneAndOnlyOne ["", "s3://bucket", ""] = (1, "s3://bucket", none) :=
  (oneAndOnlyOne_exactly_one ["", "s3://bucket", ""]).1 1 (by decide) (by decide)
    (by
      intro j hj hji
      have hj3 : j < 3 := hj
      interval_cases j
      · rfl
      · exact absurd rfl hji
      · rfl)

/-- C2. `oneAndOnlyOne` fails with the no-backend error when every entry is
empty (the empty list included), and with the multiple-backends error when two
entries at different positions are non-empty, wherever they sit. -/
theorem oneAndOnlyOne_errors (options : List String) :
    ((∀ v ∈ options, v = "") →
        oneAndOnlyOne options
          = (0, "", some ⟨"No configuration for cache backend found."⟩)) ∧
    (∀ (i j : Nat) (hi : i < options.length) (hj : j < options.length),
        i ≠ j → options[i] ≠ "" → options[j] ≠ "" →
        oneAndOnlyOne options
          = (0, "", some ⟨"You can only configure one cache backend."⟩)) := by
  constructor
  · exact oneAndOnlyOne_of_all_empty options
  · intro i j hi hj hij hni hnj
    rcases exists_first_nonempty options with hall | ⟨pre, v, post, hsplit, hpre, hv⟩
    · exact absurd (hall _ (List.getElem_mem hi)) hni
    · subst hsplit
      apply oneAndOnlyOne_of_second pre post v hpre hv
      intro hpost
      -- neither `i` nor `j` lies before or after the first non-empty entry
      have key : ∀ (k : Nat) (hk : k < (pre ++ v :: post).length),
          (pre ++ v :: post)[k] ≠ "" → k = pre.length := by
        intro k hk hne
        by_contra hkne
        apply hne
        rcases Nat.lt_or_gt_of_ne hkne with hlt | hgt
        · rw [getElem_split_left pre post v k hlt hk]
          exact hpre _ (List.getElem_mem _)
        · have hklen : k < pre.length + (post.length + 1) := by
            rw [List.length_append, List.length_cons] at hk
            exact hk
          have hk2 : k - pre.length - 1 < post.length := by omega
          have hidx := getElem_split_right pre post v (k - pre.length - 1) hk2 (by omega)
          have hget : (pre ++ v :: post)[k] = post[k - pre.length - 1] := by
            rw [← hidx]
            congr 1
            omega
          rw [hget]
          exact hpost _ (List.getElem_mem _)
      exact hij ((key i hi hni).trans (key j hj hnj).symm)

/-- C2, at the empty list and at a list with two configured backends. -/
theorem oneAndOnlyOne_errors_witness :
    oneAndOnlyOne [] = (0, "", some ⟨"No configuration for cache backend found."⟩) ∧
    oneAndOnlyOne ["sftp://host", "", "s3://bucket"]
      = (0, "", some ⟨"You can only configure one cache backend."⟩) :=
  ⟨(oneAndOnlyOne_errors []).1 (by simp),
   (oneAndOnlyOne_errors ["sftp://host", "", "s3://bucket"]).2 0 2 (by decide) (by decide)
     (by decide) (by decide) (by decide)⟩

/-! ## The cache key -/

/-- A character value lies below `0x110000`. -/
theorem char_toNat_lt (c : Char) : c.toNat < 0x110000 := by
  have h := c.valid
  simp only [UInt32.isValidChar, Nat.isValidChar] at h
  unfold Char.toNat
  omega

/-- Characters with the same value are the same. -/
theorem char_eq_of_toNat_eq (c d : Char) (h : c.toNat = d.toNat) : c = d := by
  rw [← Char.ofNat_toNat c, ← Char.ofNat_toNat d, h]

/-- Two bytes are equal exactly when their values are. -/
theorem byte_eq_iff (m n : Nat) : byte m = byte n ↔ m % 256 = n % 256 := by
  simp [byte, Fin.ext_iff]

/-- The UTF-8 encoding is a prefix code: where two encoded texts agree, their
first characters agree and so do the rests. -/
theorem utf8EncodeChar_cancel (c d : Char) (r s : List Byte)
    (h : utf8EncodeChar c ++ r = utf8EncodeChar d ++ s) : c = d ∧ r = s := by
  have hc := char_toNat_lt c
  have hd := char_toNat_lt d
  have key : c.toNat = d.toNat ∧ r = s := by
    unfold utf8EncodeChar at h
    simp only at h
    split_ifs at h <;>
      simp only [List.cons_append, List.nil_append, List.cons.injEq, byte_eq_iff] at h <;>
      first
        | exact ⟨by omega, h.2⟩
        | exact ⟨by omega, h.2.2⟩
        | exact ⟨by omega, h.2.2.2⟩
        | exact ⟨by omega, h.2.2.2.2⟩
        | (exfalso; omega)
  exact ⟨char_eq_of_toNat_eq c d key.1, key.2⟩

/-- Every character has at least one byte. -/
theorem utf8EncodeChar_ne_nil (c : Char) : utf8EncodeChar c ≠ [] := by
  unfold utf8EncodeChar
  simp only
  split_ifs <;> simp

/-- Different texts have different bytes. -/
theorem flatMap_utf8EncodeChar_injective (l1 l2 : List Char)
    (h : l1.flatMap utf8EncodeChar = l2.flatMap utf8EncodeChar) : l1 = l2 := by
  induction l1 generalizing l2 with
  | nil =>
    cases l2 with
    | nil => rfl
    | cons d l2 =>
      exfalso
      rw [List.flatMap_cons, List.flatMap_nil] at h
      exact utf8EncodeChar_ne_nil d (List.append_eq_nil.1 h.symm).1
  | cons c l1 ih =>
    cases l2 with
    | nil =>
      exfalso
      rw [List.flatMap_cons, List.flatMap_nil] at h
      exact utf8EncodeChar_ne_nil c (List.append_eq_nil.1 h).1
    | cons d l2 =>
      rw [List.flatMap_cons, List.flatMap_cons] at h
      obtain ⟨hcd, hrest⟩ := utf8EncodeChar_cancel c d _ _ h
      rw [hcd, ih l2 hrest]

theorem stringBytes_injective (s t : String) (h : stringBytes s = stringBytes t) : s = t :=
  String.ext (flatMap_utf8EncodeChar_injective s.data t.data h)

theorem stringBytes_append (s t : String) :
    stringBytes (s ++ t) = stringBytes s ++ stringBytes t := by
  simp [stringBytes, String.data_append, List.flatMap_append]

/-- What `hasher` computes: the `%x` rendering of the digest of the bytes of
`mount` followed by those of `branch`. -/
theorem hasherWith_eq (sum : List Byte → List Byte) (mount branch : String) :
    hasherWith sum mount branch = sprintfHex (sum (stringBytes (mount ++ branch))) := by
  simp [hasherWith, stringBytes_append]

/-- The sixteen digits are distinct. -/
theorem ldigits_injective :
    ∀ i j : Fin 16, ldigits.getD i.val '0' = ldigits.getD j.val '0' → i = j := by
  decide

/-- Each digit is one of `0`-`9`, `a`-`f`. -/
theorem ldigits_mem : ∀ i : Fin 16, ldigits.getD i.val '0' ∈ "0123456789abcdef".data := by
  decide

theorem hexByte_injective (a b : Byte) (h : hexByte a = hexByte b) : a = b := by
  simp only [hexByte, List.cons.injEq, and_true] at h
  have ha := a.isLt
  have hb := b.isLt
  have h1 := ldigits_injective ⟨a.val / 16, by omega⟩ ⟨b.val / 16, by omega⟩ h.1
  have h2 := ldigits_injective ⟨a.val % 16, by omega⟩ ⟨b.val % 16, by omega⟩ h.2
  simp only [Fin.mk.injEq] at h1 h2
  apply Fin.ext
  omega

theorem hexByte_mem (b : Byte) (c : Char) (h : c ∈ hexByte b) :
    c ∈ "0123456789abcdef".data := by
  have hb := b.isLt
  simp only [hexByte, List.mem_cons, List.mem_singleton, List.not_mem_nil, or_false] at h
  rcases h with rfl | rfl
  · exact ldigits_mem ⟨b.val / 16, by omega⟩
  · exact ldigits_mem ⟨b.val % 16, by omega⟩

theorem flatMap_hexByte_injective (l1 l2 : List Byte)
    (h : l1.flatMap hexByte = l2.flatMap hexByte) : l1 = l2 := by
  induction l1 generalizing l2 with
  | nil =>
    cases l2 with
    | nil => rfl
    | cons b l2 => simp [hexByte] at h
  | cons a l1 ih =>
    cases l2 with
    | nil => simp [hexByte] at h
    | cons b l2 =>
      rw [List.flatMap_cons, List.flatMap_cons] at h
      have hab : hexByte a = hexByte b := by
        simp only [hexByte, List.cons_append, List.nil_append, List.cons.injEq] at h
        simp only [hexByte, List.cons.injEq, and_true]
        exact ⟨h.1, h.2.1⟩
      rw [hab] at h
      rw [hexByte_injective a b hab, ih l2 (List.append_cancel_left h)]

/-- The rendering `%x` tells byte slices apart. -/
theorem sprintfHex_injective (l1 l2 : List Byte) (h : sprintfHex l1 = sprintfHex l2) :
    l1 = l2 := by
  apply flatMap_hexByte_injective
  exact congrArg String.data h

/-- The rendering `%x` has two characters per byte. -/
theorem sprintfHex_length (l : List Byte) : (sprintfHex l).length = 2 * l.length := by
  induction l with
  | nil => rfl
  | cons b l ih =>
    simp only [sprintfHex, String.length_mk] at ih
    simp only [sprintfHex, String.length_mk, List.flatMap_cons, List.length_append,
      List.length_cons, ih, hexByte, List.length_nil]
    omega

theorem sprintfHex_mem (l : List Byte) (c : Char) (h : c ∈ (sprintfHex l).data) :
    c ∈ "0123456789abcdef".data := by
  simp only [sprintfHex, List.mem_flatMap] at h
  obtain ⟨b, _, hc⟩ := h
  exact hexByte_mem b c hc

/-- The MD5 digest has 16 bytes. -/
theorem md5Sum_length (msg : List Byte) : (md5Sum msg).length = 16 := by
  unfold md5Sum
  simp only [word32Bytes]
  rfl

set_option maxRecDepth 100000 in
/-- The model of MD5 on the test suite of RFC 1321 (appendix A.5). -/
theorem md5Sum_test_suite :
    sprintfHex (md5Sum (stringBytes "")) = "d41d8cd98f00b204e9800998ecf8427e" ∧
    sprintfHex (md5Sum (stringBytes "a")) = "0cc175b9c0f1b6a831c399e269772661" ∧
    sprintfHex (md5Sum (stringBytes "abc")) = "900150983cd24fb0d6963f7d28e17f72" ∧
    sprintfHex (md5Sum (stringBytes "message digest")) = "f96b697d7cb7938d525a2f31aaf161d0" ∧
    sprintfHex (md5Sum (stringBytes
      "12345678901234567890123456789012345678901234567890123456789012345678901234567890"))
      = "57edf4a22be3c955ac49da2e2107b67a" := by
  refine ⟨?_, ?_, ?_, ?_, ?_⟩ <;> rfl

/-- C10. For all strings `mount` and `branch`, `hasher mount branch` has exactly
32 characters, each one of `0`-`9`, `a`-`f`, so none of them is the path
separator; it is the `%x` rendering (two lowercase hexadecimal digits per byte)
of the 16-byte MD5 digest of `mount` followed by `branch`. -/
theorem hasher_fixed_length_hex (mount branch : String) :
    (hasher mount branch).length = 32 ∧
    (∀ c ∈ (hasher mount branch).data, c ∈ "0123456789abcdef".data) ∧
    '/' ∉ (hasher mount branch).data ∧
    (md5Sum (stringBytes (mount ++ branch))).length = 16 ∧
    hasher mount branch = sprintfHex (md5Sum (stringBytes (mount ++ branch))) ∧
    (∀ bs : List Byte, sprintfHex bs = String.mk (bs.flatMap (fun b =>
      ["0123456789abcdef".data.getD (b.val / 16) '0',
       "0123456789abcdef".data.getD (b.val % 16) '0']))) := by
  have heq : hasher mount branch = sprintfHex (md5Sum (stringBytes (mount ++ branch))) :=
    hasherWith_eq md5Sum mount branch
  have hmem : ∀ c ∈ (hasher mount branch).data, c ∈ "0123456789abcdef".data := by
    intro c hc
    rw [heq] at hc
    exact sprintfHex_mem _ c hc
  refine ⟨?_, hmem, ?_, md5Sum_length _, heq, fun _ => rfl⟩
  · rw [heq, sprintfHex_length, md5Sum_length]
  · intro hslash
    exact absurd (hmem '/' hslash) (by decide)

/-- C3, as stated, fails: the two parts are written to the hash one after the
other with nothing between them, so `("a", "bc")` and `("ab", "c")` give the
same key under every digest, an injective one and MD5 included. -/
theorem hasher_collision_of_equal_concatenation :
    ("a" ≠ "ab" ∨ "bc" ≠ "c") ∧
    Function.Injective (id : List Byte → List Byte) ∧
    hasherWith id "a" "bc" = hasherWith id "ab" "c" ∧
    hasher "a" "bc" = hasher "ab" "c" := by
  refine ⟨Or.inl (by decide), Function.injective_id, ?_, ?_⟩
  · rw [hasherWith_eq, hasherWith_eq]
    rfl
  · unfold hasher
    rw [hasherWith_eq, hasherWith_eq]
    rfl

/-- C3, amended. Under a collision-free digest two keys are equal exactly when
`mount` followed by `branch` is the same text for both; so the keys differ
whenever these concatenations differ, in particular for one mount under two
branches and for two mounts under one branch. -/
theorem hasherWith_eq_iff_of_injective (sum : List Byte → List Byte)
    (hinj : Function.Injective sum) (m1 b1 m2 b2 : String) :
    (hasherWith sum m1 b1 = hasherWith sum m2 b2 ↔ m1 ++ b1 = m2 ++ b2) ∧
    (m1 ++ b1 ≠ m2 ++ b2 → hasherWith sum m1 b1 ≠ hasherWith sum m2 b2) ∧
    (m1 = m2 → b1 ≠ b2 → hasherWith sum m1 b1 ≠ hasherWith sum m2 b2) ∧
    (b1 = b2 → m1 ≠ m2 → hasherWith sum m1 b1 ≠ hasherWith sum m2 b2) := by
  have hiff : hasherWith sum m1 b1 = hasherWith sum m2 b2 ↔ m1 ++ b1 = m2 ++ b2 := by
    rw [hasherWith_eq, hasherWith_eq]
    constructor
    · intro h
      exact stringBytes_injective _ _ (hinj (sprintfHex_injective _ _ h))
    · intro h
      rw [h]
  refine ⟨hiff, fun hne h => hne (hiff.1 h), ?_, ?_⟩
  · intro hm hb h
    apply hb
    have hcat := congrArg String.data (hiff.1 h)
    rw [hm, String.data_append, String.data_append] at hcat
    exact String.ext (List.append_cancel_left hcat)
  · intro hb hm h
    apply hm
    have hcat := congrArg String.data (hiff.1 h)
    rw [hb, String.data_append, String.data_append] at hcat
    exact String.ext (List.append_cancel_right hcat)

/-- C3, amended, with the identity for digest: the keys of `./node_modules`
under the branches `main` and `dev` differ. -/
theorem hasherWith_eq_iff_of_injective_witness :
    Function.Injective (id : List Byte → List Byte) ∧
    hasherWith id "./node_modules" "main" ≠ hasherWith id "./node_modules" "dev" :=
  ⟨Function.injective_id,
   (hasherWith_eq_iff_of_injective id Function.injective_id
      "./node_modules" "main" "./node_modules" "dev").2.2.1 rfl (by decide)⟩

/-! ## The remote path -/

/-- What is left after an element was copied is no longer than the input. -/
theorem length_dropWhile_le_length (q : Char → Bool) (l : List Char) :
    (l.dropWhile q).length ≤ l.length := by
  induction l with
  | nil => simp
  | cons a l ih =>
    rw [List.dropWhile_cons]
    split
    · exact Nat.le_succ_of_le ih
    · exact Nat.le_refl _

/-- The loop of `filepath.Clean` never runs out of fuel: a turn more than the
number of bytes left changes nothing. -/
theorem cleanLoop_fuel_succ (rooted : Bool) (fuel : Nat) :
    ∀ (rest out : List Char) (dotdot : Nat), rest.length ≤ fuel →
      cleanLoop rooted (fuel + 1) rest out dotdot = cleanLoop rooted fuel rest out dotdot := by
  induction fuel with
  | zero =>
    intro rest out dotdot h
    have hnil : rest = [] := List.length_eq_zero.1 (Nat.le_zero.1 h)
    subst hnil
    simp [cleanLoop]
  | succ f ih =>
    intro rest out dotdot h
    cases rest with
    | nil => simp [cleanLoop]
    | cons c rest =>
      have hrest : rest.length ≤ f := by simpa using h
      have htail : rest.tail.length ≤ f := by
        rw [List.length_tail]
        omega
      rw [cleanLoop, cleanLoop]
      split_ifs with h1 <;>
        first
          | exact ih _ _ _ hrest
          | exact ih _ _ _ htail
          | (dsimp only
             apply ih
             rw [List.dropWhile_cons_of_pos (by simpa using h1)]
             exact Nat.le_trans (length_dropWhile_le_length _ rest) hrest)

/-- Any fuel of at least the number of bytes left gives the result of
`filepath.Clean`. -/
theorem cleanLoop_fuel (rooted : Bool) (rest out : List Char) (dotdot : Nat) (extra : Nat) :
    cleanLoop rooted (rest.length + extra) rest out dotdot
      = cleanLoop rooted rest.length rest out dotdot := by
  induction extra with
  | zero => rfl
  | succ k ih =>
    rw [← Nat.add_assoc, cleanLoop_fuel_succ rooted (rest.length + k) rest out dotdot
      (Nat.le_add_right _ _), ih]

/-! ## Rebuild and restore -/

/-- A failing store ends the loop of `ProcessRebuild` with its error. -/
theorem processRebuildLoop_cons_err {σ : Type} (env : Env σ) (p : Plugin) (mount : String)
    (rest : List String) (c c1 : σ) (trace : List Event) (e : GoError)
    (h : env.rebuildCmd c mount (filepathJoin [p.Path, p.Repo, hasher mount p.Branch]) = (c1, some e)) :
    processRebuildLoop env p (mount :: rest) c trace
      = ⟨c1, trace ++ [⟨Call.rebuildCmd mount (filepathJoin [p.Path, p.Repo, hasher mount p.Branch]), some e⟩], some e⟩ := by
  simp [processRebuildLoop, h]

/-- After a successful store the loop of `ProcessRebuild` goes on with the rest. -/
theorem processRebuildLoop_cons_ok {σ : Type} (env : Env σ) (p : Plugin) (mount : String)
    (rest : List String) (c c1 : σ) (trace : List Event)
    (h : env.rebuildCmd c mount (filepathJoin [p.Path, p.Repo, hasher mount p.Branch]) = (c1, none)) :
    processRebuildLoop env p (mount :: rest) c trace
      = processRebuildLoop env p rest c1 (trace ++ [⟨Call.rebuildCmd mount (filepathJoin [p.Path, p.Repo, hasher mount p.Branch]), none⟩]) := by
  simp [processRebuildLoop, h]

/-- The calls made before the loop of `ProcessRebuild` starts stay in front of
those it makes, and do not change what it does. -/
theorem processRebuildLoop_trace {σ : Type} (env : Env σ) (p : Plugin) (mounts : List String)
    (c : σ) (trace : List Event) :
    processRebuildLoop env p mounts c trace
      = ⟨(processRebuildLoop env p mounts c []).cache,
         trace ++ (processRebuildLoop env p mounts c []).trace,
         (processRebuildLoop env p mounts c []).err⟩ := by
  induction mounts generalizing c trace with
  | nil => simp [processRebuildLoop]
  | cons mount rest ih =>
    rcases hcall : env.rebuildCmd c mount (filepathJoin [p.Path, p.Repo, hasher mount p.Branch]) with ⟨c1, _ | e⟩
    · rw [processRebuildLoop_cons_ok env p mount rest c c1 trace hcall,
        processRebuildLoop_cons_ok env p mount rest c c1 [] hcall, ih c1 (trace ++ _),
        ih c1 ([] ++ _)]
      simp
    · rw [processRebuildLoop_cons_err env p mount rest c c1 trace e hcall,
        processRebuildLoop_cons_err env p mount rest c c1 [] e hcall]
      simp

/-- The loop of `ProcessRebuild`, on any list of mounts: the calls are those of a
prefix of the list, in order; every call but the last succeeded; the result is
`nil` only after a successful call for every mount, and an error only when the
last call returned it. -/
theorem processRebuildLoop_spec {σ : Type} (env : Env σ) (p : Plugin) (mounts : List String)
    (c : σ) :
    ∃ k, k ≤ mounts.length ∧
      (processRebuildLoop env p mounts c []).trace.map Event.call
        = (mounts.take k).map (fun mount => Call.rebuildCmd mount (filepathJoin [p.Path, p.Repo, hasher mount p.Branch])) ∧
      (∀ ev ∈ (processRebuildLoop env p mounts c []).trace.dropLast, ev.err = none) ∧
      ((processRebuildLoop env p mounts c []).err = none →
        k = mounts.length ∧
          ∀ ev ∈ (processRebuildLoop env p mounts c []).trace, ev.err = none) ∧
      (∀ e, (processRebuildLoop env p mounts c []).err = some e →
        ∃ ev, (processRebuildLoop env p mounts c []).trace.getLast? = some ev ∧
          ev.err = some e) := by
  induction mounts generalizing c with
  | nil =>
    refine ⟨0, Nat.le_refl _, ?_, ?_, ?_, ?_⟩ <;> simp [processRebuildLoop]
  | cons mount rest ih =>
    rcases hcall : env.rebuildCmd c mount (filepathJoin [p.Path, p.Repo, hasher mount p.Branch]) with ⟨c1, _ | e⟩
    · obtain ⟨k, hk, hcalls, hinit, hok, herr⟩ := ih c1
      rw [processRebuildLoop_cons_ok env p mount rest c c1 [] hcall, processRebuildLoop_trace]
      simp only [List.nil_append, List.singleton_append]
      refine ⟨k + 1, by simpa using hk, ?_, ?_, ?_, ?_⟩
      · simp [hcalls]
      · intro ev hev
        cases htr : (processRebuildLoop env p rest c1 []).trace with
        | nil => simp [htr] at hev
        | cons ev1 tr1 =>
          rw [htr, List.dropLast_cons₂] at hev
          rcases List.mem_cons.1 hev with rfl | hev
          · rfl
          · apply hinit
            rw [htr]
            exact hev
      · intro hnone
        obtain ⟨hk2, hall⟩ := hok hnone
        refine ⟨by simp [hk2], ?_⟩
        intro ev hev
        rcases List.mem_cons.1 hev with rfl | hev
        · rfl
        · exact hall ev hev
      · intro e he
        obtain ⟨ev, hlast, hev⟩ := herr e he
        refine ⟨ev, ?_, hev⟩
        cases htr : (processRebuildLoop env p rest c1 []).trace with
        | nil => simp [htr] at hlast
        | cons ev1 tr1 =>
          rw [htr] at hlast
          rw [List.getLast?_cons_cons]
          exact hlast
    · rw [processRebuildLoop_cons_err env p mount rest c c1 [] e hcall]
      refine ⟨1, by simp, ?_, ?_, ?_, ?_⟩
      · simp
      · simp
      · simp
      · intro e2 he2
        simp only [List.nil_append, Option.some.injEq] at he2
        subst he2
        exact ⟨_, rfl, rfl⟩

/-- A failing fetch ends the loop of `ProcessRestore` with its error. -/
theorem processRestoreLoop_cons_err {σ : Type} (env : Env σ) (p : Plugin) (mount : String)
    (rest : List String) (c c1 : σ) (trace : List Event) (e : GoError)
    (h : env.restoreCmd c (filepathJoin [p.Path, p.Repo, hasher mount p.Branch]) mount = (c1, some e)) :
    processRestoreLoop env p (mount :: rest) c trace
      = ⟨c1, trace ++ [⟨Call.restoreCmd (filepathJoin [p.Path, p.Repo, hasher mount p.Branch]) mount, some e⟩], some e⟩ := by
  simp [processRestoreLoop, h]

/-- After a successful fetch the loop of `ProcessRestore` goes on with the rest. -/
theorem processRestoreLoop_cons_ok {σ : Type} (env : Env σ) (p : Plugin) (mount : String)
    (rest : List String) (c c1 : σ) (trace : List Event)
    (h : env.restoreCmd c (filepathJoin [p.Path, p.Repo, hasher mount p.Branch]) mount = (c1, none)) :
    processRestoreLoop env p (mount :: rest) c trace
      = processRestoreLoop env p rest c1 (trace ++ [⟨Call.restoreCmd (filepathJoin [p.Path, p.Repo, hasher mount p.Branch]) mount, none⟩]) := by
  simp [processRestoreLoop, h]

/-- The calls made before the loop of `ProcessRestore` starts stay in front of
those it makes, and do not change what it does. -/
theorem processRestoreLoop_trace {σ : Type} (env : Env σ) (p : Plugin) (mounts : List String)
    (c : σ) (trace : List Event) :
    processRestoreLoop env p mounts c trace
      = ⟨(processRestoreLoop env p mounts c []).cache,
         trace ++ (processRestoreLoop env p mounts c []).trace,
         (processRestoreLoop env p mounts c []).err⟩ := by
  induction mounts generalizing c trace with
  | nil => simp [processRestoreLoop]
  | cons mount rest ih =>
    rcases hcall : env.restoreCmd c (filepathJoin [p.Path, p.Repo, hasher mount p.Branch]) mount with ⟨c1, _ | e⟩
    · rw [processRestoreLoop_cons_ok env p mount rest c c1 trace hcall,
        processRestoreLoop_cons_ok env p mount rest c c1 [] hcall, ih c1 (trace ++ _),
        ih c1 ([] ++ _)]
      simp
    · rw [processRestoreLoop_cons_err env p mount rest c c1 trace e hcall,
        processRestoreLoop_cons_err env p mount rest c c1 [] e hcall]
      simp

/-- The loop of `ProcessRestore`, on any list of mounts: the calls are those of a
prefix of the list, in order; every call but the last succeeded; the result is
`nil` only after a successful call for every mount, and an error only when the
last call returned it. -/
theorem processRestoreLoop_spec {σ : Type} (env : Env σ) (p : Plugin) (mounts : List String)
    (c : σ) :
    ∃ k, k ≤ mounts.length ∧
      (processRestoreLoop env p mounts c []).trace.map Event.call
        = (mounts.take k).map (fun mount => Call.restoreCmd (filepathJoin [p.Path, p.Repo, hasher mount p.Branch]) mount) ∧
      (∀ ev ∈ (processRestoreLoop env p mounts c []).trace.dropLast, ev.err = none) ∧
      ((processRestoreLoop env p mounts c []).err = none →
        k = mounts.length ∧
          ∀ ev ∈ (processRestoreLoop env p mounts c []).trace, ev.err = none) ∧
      (∀ e, (processRestoreLoop env p mounts c []).err = some e →
        ∃ ev, (processRestoreLoop env p mounts c []).trace.getLast? = some ev ∧
          ev.err = some e) := by
  induction mounts generalizing c with
  | nil =>
    refine ⟨0, Nat.le_refl _, ?_, ?_, ?_, ?_⟩ <;> simp [processRestoreLoop]
  | cons mount rest ih =>
    rcases hcall : env.restoreCmd c (filepathJoin [p.Path, p.Repo, hasher mount p.Branch]) mount with ⟨c1, _ | e⟩
    · obtain ⟨k, hk, hcalls, hinit, hok, herr⟩ := ih c1
      rw [processRestoreLoop_cons_ok env p mount rest c c1 [] hcall, processRestoreLoop_trace]
      simp only [List.nil_append, List.singleton_append]
      refine ⟨k + 1, by simpa using hk, ?_, ?_, ?_, ?_⟩
      · simp [hcalls]
      · intro ev hev
        cases htr : (processRestoreLoop env p rest c1 []).trace with
        | nil => simp [htr] at hev
        | cons ev1 tr1 =>
          rw [htr, List.dropLast_cons₂] at hev
          rcases List.mem_cons.1 hev with rfl | hev
          · rfl
          · apply hinit
            rw [htr]
            exact hev
      · intro hnone
        obtain ⟨hk2, hall⟩ := hok hnone
        refine ⟨by simp [hk2], ?_⟩
        intro ev hev
        rcases List.mem_cons.1 hev with rfl | hev
        · rfl
        · exact hall ev hev
      · intro e he
        obtain ⟨ev, hlast, hev⟩ := herr e he
        refine ⟨ev, ?_, hev⟩
        cases htr : (processRestoreLoop env p rest c1 []).trace with
        | nil => simp [htr] at hlast
        | cons ev1 tr1 =>
          rw [htr] at hlast
          rw [List.getLast?_cons_cons]
          exact hlast
    · rw [processRestoreLoop_cons_err env p mount rest c c1 [] e hcall]
      refine ⟨1, by simp, ?_, ?_, ?_, ?_⟩
      · simp
      · simp
      · simp
      · intro e2 he2
        simp only [List.nil_append, Option.some.injEq] at he2
        subst he2
        exact ⟨_, rfl, rfl⟩

/-- The calls of `ProcessRebuild`: those of a prefix of the mount list, in
order; every call but the last succeeded; `nil` is returned only after a
successful store of every mount, an error only when the last call returned it. -/
theorem ProcessRebuild_in_order {σ : Type} (env : Env σ) (p : Plugin) (c : σ) :
    (ProcessRebuild env p c).trace.length ≤ p.Mount.length ∧
      (ProcessRebuild env p c).trace.map Event.call
        = (p.Mount.take (ProcessRebuild env p c).trace.length).map
            (fun mount => Call.rebuildCmd mount (filepathJoin [p.Path, p.Repo, hasher mount p.Branch])) ∧
      (∀ ev ∈ (ProcessRebuild env p c).trace.dropLast, ev.err = none) ∧
      ((ProcessRebuild env p c).err = none →
        (ProcessRebuild env p c).trace.length = p.Mount.length ∧
          ∀ ev ∈ (ProcessRebuild env p c).trace, ev.err = none) ∧
      (∀ e, (ProcessRebuild env p c).err = some e →
        ∃ ev, (ProcessRebuild env p c).trace.getLast? = some ev ∧ ev.err = some e) := by
  obtain ⟨k, hk, hcalls, hinit, hok, herr⟩ := processRebuildLoop_spec env p p.Mount c
  have hlen : (ProcessRebuild env p c).trace.length = k := by
    have h := congrArg List.length hcalls
    rw [List.length_map, List.length_map, List.length_take] at h
    unfold ProcessRebuild
    omega
  rw [hlen]
  exact ⟨hk, hcalls, hinit, hok, herr⟩

/-- Three mounts, the store of the second failing: `ProcessRebuild` stops there. -/
theorem ProcessRebuild_of_second_fails {σ : Type} (env : Env σ) (p : Plugin) (c : σ)
    (A B C : String) (c1 c2 : σ) (e : GoError) (hM : p.Mount = [A, B, C])
    (hA : env.rebuildCmd c A (filepathJoin [p.Path, p.Repo, hasher A p.Branch]) = (c1, none))
    (hB : env.rebuildCmd c1 B (filepathJoin [p.Path, p.Repo, hasher B p.Branch]) = (c2, some e)) :
    (ProcessRebuild env p c).trace
        = [⟨Call.rebuildCmd A (filepathJoin [p.Path, p.Repo, hasher A p.Branch]), none⟩,
           ⟨Call.rebuildCmd B (filepathJoin [p.Path, p.Repo, hasher B p.Branch]), some e⟩] ∧
      (ProcessRebuild env p c).err = some e := by
  unfold ProcessRebuild
  rw [hM, processRebuildLoop_cons_ok env p A [B, C] c c1 [] hA,
    processRebuildLoop_cons_err env p B [C] c1 c2 _ e hB]
  exact ⟨rfl, rfl⟩

/-- C4. ProcessRebuild is fail-fast in list order: it calls the store once for
each mount of a prefix of the list, in order, with the remote path
`filepath.Join(p.Path, p.Repo, hasher(mount, p.Branch))`; every call but the
last succeeded; it returns `nil` only when the store of every mount was made
and succeeded, and an error only when that is what the last call returned.
With mounts `[A, B, C]` where the store of `A` succeeds and that of `B` fails,
the calls are exactly `A` then `B` and the result is the error of `B`. -/
theorem ProcessRebuild_fail_fast {σ : Type} (env : Env σ) (p : Plugin) (c : σ) :
    ((ProcessRebuild env p c).trace.length ≤ p.Mount.length ∧
      (ProcessRebuild env p c).trace.map Event.call
        = (p.Mount.take (ProcessRebuild env p c).trace.length).map
            (fun mount => Call.rebuildCmd mount (filepathJoin [p.Path, p.Repo, hasher mount p.Branch])) ∧
      (∀ ev ∈ (ProcessRebuild env p c).trace.dropLast, ev.err = none) ∧
      ((ProcessRebuild env p c).err = none →
        (ProcessRebuild env p c).trace.length = p.Mount.length ∧
          ∀ ev ∈ (ProcessRebuild env p c).trace, ev.err = none) ∧
      (∀ e, (ProcessRebuild env p c).err = some e →
        ∃ ev, (ProcessRebuild env p c).trace.getLast? = some ev ∧ ev.err = some e)) ∧
    (∀ (A B C : String) (c1 c2 : σ) (e : GoError), p.Mount = [A, B, C] →
      env.rebuildCmd c A (filepathJoin [p.Path, p.Repo, hasher A p.Branch]) = (c1, none) →
      env.rebuildCmd c1 B (filepathJoin [p.Path, p.Repo, hasher B p.Branch]) = (c2, some e) →
      (ProcessRebuild env p c).trace
          = [⟨Call.rebuildCmd A (filepathJoin [p.Path, p.Repo, hasher A p.Branch]), none⟩,
             ⟨Call.rebuildCmd B (filepathJoin [p.Path, p.Repo, hasher B p.Branch]), some e⟩] ∧
        (ProcessRebuild env p c).err = some e) :=
  ⟨ProcessRebuild_in_order env p c,
   fun A B C c1 c2 e hM hA hB => ProcessRebuild_of_second_fails env p c A B C c1 c2 e hM hA hB⟩

/-- C4, on the mounts `A`, `B`, `C` with a backend whose store of `B` fails. -/
theorem ProcessRebuild_fail_fast_witness :
    (ProcessRebuild failOnB (examplePlugin true false) 0).trace.map Event.call
      = [Call.rebuildCmd "A" "/cache/acme/app/ba7aad8b56d1337082fab3428d4f1079",
         Call.rebuildCmd "B" "/cache/acme/app/b3a22200951ecc8bc4eb048aa243d74f"] ∧
    (ProcessRebuild failOnB (examplePlugin true false) 0).err = some ⟨"store failed"⟩ := by
  have h := (ProcessRebuild_fail_fast failOnB (examplePlugin true false) 0).2
    "A" "B" "C" 1 2 ⟨"store failed"⟩ rfl rfl rfl
  rw [h.1, h.2]
  exact ⟨rfl, rfl⟩

/-- The calls of `ProcessRestore`: those of a prefix of the mount list, in
order; every call but the last succeeded; `nil` is returned only after a
successful fetch of every mount, an error only when the last call returned it. -/
theorem ProcessRestore_in_order {σ : Type} (env : Env σ) (p : Plugin) (c : σ) :
    (ProcessRestore env p c).trace.length ≤ p.Mount.length ∧
      (ProcessRestore env p c).trace.map Event.call
        = (p.Mount.take (ProcessRestore env p c).trace.length).map
            (fun mount => Call.restoreCmd (filepathJoin [p.Path, p.Repo, hasher mount p.Branch]) mount) ∧
      (∀ ev ∈ (ProcessRestore env p c).trace.dropLast, ev.err = none) ∧
      ((ProcessRestore env p c).err = none →
        (ProcessRestore env p c).trace.length = p.Mount.length ∧
          ∀ ev ∈ (ProcessRestore env p c).trace, ev.err = none) ∧
      (∀ e, (ProcessRestore env p c).err = some e →
        ∃ ev, (ProcessRestore env p c).trace.getLast? = some ev ∧ ev.err = some e) := by
  obtain ⟨k, hk, hcalls, hinit, hok, herr⟩ := processRestoreLoop_spec env p p.Mount c
  have hlen : (ProcessRestore env p c).trace.length = k := by
    have h := congrArg List.length hcalls
    rw [List.length_map, List.length_map, List.length_take] at h
    unfold ProcessRestore
    omega
  rw [hlen]
  exact ⟨hk, hcalls, hinit, hok, herr⟩

/-- Three mounts, the fetch of the second failing: `ProcessRestore` stops there. -/
theorem ProcessRestore_of_second_fails {σ : Type} (env : Env σ) (p : Plugin) (c : σ)
    (A B C : String) (c1 c2 : σ) (e : GoError) (hM : p.Mount = [A, B, C])
    (hA : env.restoreCmd c (filepathJoin [p.Path, p.Repo, hasher A p.Branch]) A = (c1, none))
    (hB : env.restoreCmd c1 (filepathJoin [p.Path, p.Repo, hasher B p.Branch]) B = (c2, some e)) :
    (ProcessRestore env p c).trace
        = [⟨Call.restoreCmd (filepathJoin [p.Path, p.Repo, hasher A p.Branch]) A, none⟩,
           ⟨Call.restoreCmd (filepathJoin [p.Path, p.Repo, hasher B p.Branch]) B, some e⟩] ∧
      (ProcessRestore env p c).err = some e := by
  unfold ProcessRestore
  rw [hM, processRestoreLoop_cons_ok env p A [B, C] c c1 [] hA,
    processRestoreLoop_cons_err env p B [C] c1 c2 _ e hB]
  exact ⟨rfl, rfl⟩

/-- C5. ProcessRestore is fail-fast in list order: it calls the fetch once for
each mount of a prefix of the list, in order, with the remote path
`filepath.Join(p.Path, p.Repo, hasher(mount, p.Branch))`,
the key of the configured branch and of no other, and makes no further call; every call but the
last succeeded; it returns `nil` only when the fetch of every mount was made
and succeeded, and an error only when that is what the last call returned.
With mounts `[A, B, C]` where the fetch of `A` succeeds and that of `B` fails,
the calls are exactly `A` then `B` and the result is the error of `B`. -/
theorem ProcessRestore_fail_fast {σ : Type} (env : Env σ) (p : Plugin) (c : σ) :
    ((ProcessRestore env p c).trace.length ≤ p.Mount.length ∧
      (ProcessRestore env p c).trace.map Event.call
        = (p.Mount.take (ProcessRestore env p c).trace.length).map
            (fun mount => Call.restoreCmd (filepathJoin [p.Path, p.Repo, hasher mount p.Branch]) mount) ∧
      (∀ ev ∈ (ProcessRestore env p c).trace.dropLast, ev.err = none) ∧
      ((ProcessRestore env p c).err = none →
        (ProcessRestore env p c).trace.length = p.Mount.length ∧
          ∀ ev ∈ (ProcessRestore env p c).trace, ev.err = none) ∧
      (∀ e, (ProcessRestore env p c).err = some e →
        ∃ ev, (ProcessRestore env p c).trace.getLast? = some ev ∧ ev.err = some e)) ∧
    (∀ (A B C : String) (c1 c2 : σ) (e : GoError), p.Mount = [A, B, C] →
      env.restoreCmd c (filepathJoin [p.Path, p.Repo, hasher A p.Branch]) A = (c1, none) →
      env.restoreCmd c1 (filepathJoin [p.Path, p.Repo, hasher B p.Branch]) B = (c2, some e) →
      (ProcessRestore env p c).trace
          = [⟨Call.restoreCmd (filepathJoin [p.Path, p.Repo, hasher A p.Branch]) A, none⟩,
             ⟨Call.restoreCmd (filepathJoin [p.Path, p.Repo, hasher B p.Branch]) B, some e⟩] ∧
        (ProcessRestore env p c).err = some e) :=
  ⟨ProcessRestore_in_order env p c,
   fun A B C c1 c2 e hM hA hB => ProcessRestore_of_second_fails env p c A B C c1 c2 e hM hA hB⟩

/-- C5, on the mounts `A`, `B`, `C` with a backend whose fetch of `B` fails. -/
theorem ProcessRestore_fail_fast_witness :
    (ProcessRestore failOnB (examplePlugin false true) 0).trace.map Event.call
      = [Call.restoreCmd "/cache/acme/app/ba7aad8b56d1337082fab3428d4f1079" "A",
         Call.restoreCmd "/cache/acme/app/b3a22200951ecc8bc4eb048aa243d74f" "B"] ∧
    (ProcessRestore failOnB (examplePlugin false true) 0).err = some ⟨"not found"⟩ := by
  have h := (ProcessRestore_fail_fast failOnB (examplePlugin false true) 0).2
    "A" "B" "C" 1 2 ⟨"not found"⟩ rfl rfl rfl
  rw [h.1, h.2]
  exact ⟨rfl, rfl⟩

/-! ## The run -/

/-- The selector on the two configuration strings of the plugin. -/
theorem oneAndOnlyOne_pair (a b : String) :
    (a = "" → b = "" →
      oneAndOnlyOne [a, b] = (0, "", some ⟨"No configuration for cache backend found."⟩)) ∧
    (a ≠ "" → b ≠ "" →
      oneAndOnlyOne [a, b] = (0, "", some ⟨"You can only configure one cache backend."⟩)) ∧
    (a ≠ "" → b = "" → oneAndOnlyOne [a, b] = (0, a, none)) ∧
    (a = "" → b ≠ "" → oneAndOnlyOne [a, b] = (1, b, none)) := by
  refine ⟨?_, ?_, ?_, ?_⟩ <;> intro ha hb <;>
    simp [oneAndOnlyOne, oneAndOnlyOneLoop, ha, hb]

/-- With the SFTP string alone configured and its backend constructed, `Exec`
runs the phases on that backend. -/
theorem Exec_of_sftp {σ : Type} (env : Env σ) (p : Plugin) (c : σ)
    (h1 : p.SFTP ≠ "") (h2 : p.S3 = "") (h3 : env.sftpFromJSON p.SFTP = Except.ok c) :
    Exec env p = execPhases env p c [⟨Call.sftpFromJSON p.SFTP, none⟩] := by
  simp [Exec, (oneAndOnlyOne_pair p.SFTP p.S3).2.2.1 h1 h2, h3]

/-- With the S3 string alone configured and its backend constructed, `Exec`
runs the phases on that backend. -/
theorem Exec_of_s3 {σ : Type} (env : Env σ) (p : Plugin) (c : σ)
    (h1 : p.SFTP = "") (h2 : p.S3 ≠ "") (h3 : env.s3FromJSON p.S3 = Except.ok c) :
    Exec env p = execPhases env p c [⟨Call.s3FromJSON p.S3, none⟩] := by
  simp [Exec, (oneAndOnlyOne_pair p.SFTP p.S3).2.2.2 h1 h2, h3]

/-- The phases always return `nil`. -/
theorem execPhases_outcome {σ : Type} (env : Env σ) (p : Plugin) (c : σ)
    (trace0 : List Event) :
    (execPhases env p c trace0).outcome = Outcome.returned none := by
  simp [execPhases]

/-- The calls of `ProcessRebuild` are stores. -/
theorem ProcessRebuild_calls {σ : Type} (env : Env σ) (p : Plugin) (c : σ) :
    ∀ ev ∈ (ProcessRebuild env p c).trace, ∃ mount path, ev.call = Call.rebuildCmd mount path := by
  intro ev hev
  obtain ⟨k, _, hcalls, _⟩ := processRebuildLoop_spec env p p.Mount c
  have hmem : ev.call ∈ (ProcessRebuild env p c).trace.map Event.call :=
    List.mem_map_of_mem _ hev
  unfold ProcessRebuild at hmem
  rw [hcalls, List.mem_map] at hmem
  obtain ⟨mount, _, hm⟩ := hmem
  exact ⟨mount, _, hm.symm⟩

/-- The calls of `ProcessRestore` are fetches. -/
theorem ProcessRestore_calls {σ : Type} (env : Env σ) (p : Plugin) (c : σ) :
    ∀ ev ∈ (ProcessRestore env p c).trace, ∃ path mount, ev.call = Call.restoreCmd path mount := by
  intro ev hev
  obtain ⟨k, _, hcalls, _⟩ := processRestoreLoop_spec env p p.Mount c
  have hmem : ev.call ∈ (ProcessRestore env p c).trace.map Event.call :=
    List.mem_map_of_mem _ hev
  unfold ProcessRestore at hmem
  rw [hcalls, List.mem_map] at hmem
  obtain ⟨mount, _, hm⟩ := hmem
  exact ⟨_, mount, hm.symm⟩

/-- The calls of the phases, by the two flags: the stores of the rebuild, the
fetches of the restore on the backend as the rebuild left it, a log line when
the variable `err` is not `nil` at the end, and the release. -/
theorem execPhases_trace {σ : Type} (env : Env σ) (p : Plugin) (c : σ)
    (trace0 : List Event) :
    (p.Rebuild = false → p.Restore = false →
      (execPhases env p c trace0).trace = trace0 ++ [⟨Call.close, (env.close c).2⟩]) ∧
    (p.Rebuild = true → p.Restore = false →
      (execPhases env p c trace0).trace
        = trace0 ++ (ProcessRebuild env p c).trace
          ++ (match (ProcessRebuild env p c).err with
              | some e => [⟨Call.logPrintln e, none⟩]
              | none => [])
          ++ [⟨Call.close, (env.close (ProcessRebuild env p c).cache).2⟩]) ∧
    (p.Rebuild = false → p.Restore = true →
      (execPhases env p c trace0).trace
        = trace0 ++ (ProcessRestore env p c).trace
          ++ (match (ProcessRestore env p c).err with
              | some e => [⟨Call.logPrintln e, none⟩]
              | none => [])
          ++ [⟨Call.close, (env.close (ProcessRestore env p c).cache).2⟩]) ∧
    (p.Rebuild = true → p.Restore = true →
      (execPhases env p c trace0).trace
        = trace0 ++ (ProcessRebuild env p c).trace
          ++ (ProcessRestore env p (ProcessRebuild env p c).cache).trace
          ++ (match (ProcessRestore env p (ProcessRebuild env p c).cache).err with
              | some e => [⟨Call.logPrintln e, none⟩]
              | none => [])
          ++ [⟨Call.close,
              (env.close (ProcessRestore env p (ProcessRebuild env p c).cache).cache).2⟩]) := by
  refine ⟨?_, ?_, ?_, ?_⟩ <;> intro hb hs
  · simp [execPhases, hb, hs]
  · simp only [execPhases, hb, hs, if_true, Bool.false_eq_true, if_false]
    cases (ProcessRebuild env p c).err <;> simp
  · simp only [execPhases, hb, hs, if_true, Bool.false_eq_true, if_false]
    cases (ProcessRestore env p c).err <;> simp
  · simp only [execPhases, hb, hs, if_true]
    cases (ProcessRestore env p (ProcessRebuild env p c).cache).err <;> simp

/-- In the log line of the phases there is no release. -/
theorem logLine_ne_close (err : Option GoError) (ev : Event)
    (h : ev ∈ (match err with
        | some e => [(⟨Call.logPrintln e, none⟩ : Event)]
        | none => [])) :
    ev.call ≠ Call.close := by
  cases err with
  | none => simp at h
  | some e =>
    simp only [List.mem_singleton] at h
    rw [h]
    simp

/-- The phases end with the one release of the backend. -/
theorem execPhases_close_last {σ : Type} (env : Env σ) (p : Plugin) (c : σ)
    (trace0 : List Event) (h0 : ∀ ev ∈ trace0, ev.call ≠ Call.close) :
    ∃ init cerr, (execPhases env p c trace0).trace = init ++ [⟨Call.close, cerr⟩] ∧
      ∀ ev ∈ init, ev.call ≠ Call.close := by
  have hrb : ∀ (c : σ), ∀ ev ∈ (ProcessRebuild env p c).trace, ev.call ≠ Call.close := by
    intro c ev hev
    obtain ⟨mount, path, hcall⟩ := ProcessRebuild_calls env p c ev hev
    rw [hcall]
    simp
  have hrs : ∀ (c : σ), ∀ ev ∈ (ProcessRestore env p c).trace, ev.call ≠ Call.close := by
    intro c ev hev
    obtain ⟨path, mount, hcall⟩ := ProcessRestore_calls env p c ev hev
    rw [hcall]
    simp
  obtain ⟨t00, t10, t01, t11⟩ := execPhases_trace env p c trace0
  cases hb : p.Rebuild <;> cases hs : p.Restore
  · exact ⟨_, _, t00 hb hs, h0⟩
  · refine ⟨_, _, t01 hb hs, ?_⟩
    intro ev hev
    rcases List.mem_append.1 hev with hev | hev
    · rcases List.mem_append.1 hev with hev | hev
      · exact h0 ev hev
      · exact hrs _ ev hev
    · exact logLine_ne_close _ ev hev
  · refine ⟨_, _, t10 hb hs, ?_⟩
    intro ev hev
    rcases List.mem_append.1 hev with hev | hev
    · rcases List.mem_append.1 hev with hev | hev
      · exact h0 ev hev
      · exact hrb _ ev hev
    · exact logLine_ne_close _ ev hev
  · refine ⟨_, _, t11 hb hs, ?_⟩
    intro ev hev
    rcases List.mem_append.1 hev with hev | hev
    · rcases List.mem_append.1 hev with hev | hev
      · rcases List.mem_append.1 hev with hev | hev
        · exact h0 ev hev
        · exact hrb _ ev hev
      · exact hrs _ ev hev
    · exact logLine_ne_close _ ev hev

/-- C8. Release guarantee: when exactly one backend is configured and its
construction succeeds, then for every setting of the two flags and every
outcome of the stores and fetches, `Exec` calls `Close` exactly once, and that
call is the last of the run, after every store and fetch. -/
theorem Exec_releases_once {σ : Type} (env : Env σ) (p : Plugin) (c : σ)
    (h : (p.SFTP ≠ "" ∧ p.S3 = "" ∧ env.sftpFromJSON p.SFTP = Except.ok c) ∨
      (p.SFTP = "" ∧ p.S3 ≠ "" ∧ env.s3FromJSON p.S3 = Except.ok c)) :
    (∃ init cerr, (Exec env p).trace = init ++ [⟨Call.close, cerr⟩] ∧
      ∀ ev ∈ init, ev.call ≠ Call.close) ∧
    ((Exec env p).trace.map Event.call).count Call.close = 1 := by
  have hex : ∃ init cerr, (Exec env p).trace = init ++ [⟨Call.close, cerr⟩] ∧
      ∀ ev ∈ init, ev.call ≠ Call.close := by
    rcases h with ⟨h1, h2, h3⟩ | ⟨h1, h2, h3⟩
    · rw [Exec_of_sftp env p c h1 h2 h3]
      apply execPhases_close_last
      intro ev hev
      simp only [List.mem_singleton] at hev
      rw [hev]
      simp
    · rw [Exec_of_s3 env p c h1 h2 h3]
      apply execPhases_close_last
      intro ev hev
      simp only [List.mem_singleton] at hev
      rw [hev]
      simp
  refine ⟨hex, ?_⟩
  obtain ⟨init, cerr, htrace, hinit⟩ := hex
  rw [htrace, List.map_append, List.count_append]
  have hzero : (init.map Event.call).count Call.close = 0 := by
    rw [List.count_eq_zero]
    intro hmem
    obtain ⟨ev, hev, hcall⟩ := List.mem_map.1 hmem
    exact hinit ev hev hcall
  rw [hzero]
  simp

/-- C8, on a run of both phases in which a store and a fetch fail. -/
theorem Exec_releases_once_witness :
    (∃ init cerr, (Exec failOnB (examplePlugin true true)).trace
        = init ++ [⟨Call.close, cerr⟩] ∧ ∀ ev ∈ init, ev.call ≠ Call.close) ∧
    ((Exec failOnB (examplePlugin true true)).trace.map Event.call).count Call.close = 1 :=
  Exec_releases_once failOnB (examplePlugin true true) 0
    (Or.inl ⟨by decide, rfl, rfl⟩)

/-- C9. A configuration error is terminal and comes before any call: when the
SFTP and S3 strings are both empty or both non-empty, then for every setting of
the flags and the mount list `Exec` returns the error of `oneAndOnlyOne` and
makes no call at all: no construction, no store, no fetch, no release. -/
theorem Exec_configuration_error {σ : Type} (env : Env σ) (p : Plugin)
    (h : (p.SFTP = "" ∧ p.S3 = "") ∨ (p.SFTP ≠ "" ∧ p.S3 ≠ "")) :
    (Exec env p).trace = [] ∧
    (Exec env p).outcome = Outcome.returned (oneAndOnlyOne [p.SFTP, p.S3]).2.2 ∧
    (oneAndOnlyOne [p.SFTP, p.S3]).2.2 ≠ none := by
  rcases h with ⟨h1, h2⟩ | ⟨h1, h2⟩
  · simp [Exec, (oneAndOnlyOne_pair p.SFTP p.S3).1 h1 h2]
  · simp [Exec, (oneAndOnlyOne_pair p.SFTP p.S3).2.1 h1 h2]

/-- C9, with both backends configured and with none. -/
theorem Exec_configuration_error_witness :
    (Exec failOnB { examplePlugin true true with S3 := "s3-config" }).trace = [] ∧
    (Exec failOnB { examplePlugin true true with S3 := "s3-config" }).outcome
      = Outcome.returned (some ⟨"You can only configure one cache backend."⟩) ∧
    (Exec failOnB { examplePlugin true true with SFTP := "" }).trace = [] ∧
    (Exec failOnB { examplePlugin true true with SFTP := "" }).outcome
      = Outcome.returned (some ⟨"No configuration for cache backend found."⟩) :=
  ⟨(Exec_configuration_error failOnB { examplePlugin true true with S3 := "s3-config" }
      (Or.inr ⟨by decide, by decide⟩)).1,
   (Exec_configuration_error failOnB { examplePlugin true true with S3 := "s3-config" }
      (Or.inr ⟨by decide, by decide⟩)).2.1,
   (Exec_configuration_error failOnB { examplePlugin true true with SFTP := "" }
      (Or.inl ⟨rfl, rfl⟩)).1,
   (Exec_configuration_error failOnB { examplePlugin true true with SFTP := "" }
      (Or.inl ⟨rfl, rfl⟩)).2.1⟩

/-- The first mount is always attempted: with a single mount, `ProcessRebuild`
makes exactly one call. -/
theorem processRebuildLoop_singleton {σ : Type} (env : Env σ) (p : Plugin) (mount : String)
    (c : σ) :
    (processRebuildLoop env p [mount] c []).trace.map Event.call
      = [Call.rebuildCmd mount (filepathJoin [p.Path, p.Repo, hasher mount p.Branch])] := by
  rcases hcall : env.rebuildCmd c mount (filepathJoin [p.Path, p.Repo, hasher mount p.Branch]) with ⟨c1, _ | e⟩
  · rw [processRebuildLoop_cons_ok env p mount [] c c1 [] hcall]
    simp [processRebuildLoop]
  · rw [processRebuildLoop_cons_err env p mount [] c c1 [] e hcall]
    simp

/-- With a single mount, `ProcessRestore` makes exactly one call. -/
theorem processRestoreLoop_singleton {σ : Type} (env : Env σ) (p : Plugin) (mount : String)
    (c : σ) :
    (processRestoreLoop env p [mount] c []).trace.map Event.call
      = [Call.restoreCmd (filepathJoin [p.Path, p.Repo, hasher mount p.Branch]) mount] := by
  rcases hcall : env.restoreCmd c (filepathJoin [p.Path, p.Repo, hasher mount p.Branch]) mount with ⟨c1, _ | e⟩
  · rw [processRestoreLoop_cons_ok env p mount [] c c1 [] hcall]
    simp [processRestoreLoop]
  · rw [processRestoreLoop_cons_err env p mount [] c c1 [] e hcall]
    simp

/-- An entry of a mapped prefix comes from the entry of the list at the same
position. -/
theorem getElem?_map_take {α β : Type} (f : α → β) (l : List α) (k i : Nat) (b : β)
    (h : ((l.take k).map f)[i]? = some b) :
    ∃ (hi : i < l.length), f l[i] = b := by
  rw [List.getElem?_map, List.getElem?_take] at h
  split at h
  · cases hl : l[i]? with
    | none => simp [hl] at h
    | some a =>
      obtain ⟨hi, ha⟩ := List.getElem?_eq_some.1 hl
      refine ⟨hi, ?_⟩
      rw [hl] at h
      rw [ha]
      simpa using h
  · simp at h

set_option maxRecDepth 100000 in
/-- The remote path of the scenario of the specification. -/
theorem scenario_remote_path :
    filepathJoin ["/cache", "acme/app", hasher "./node_modules" "main"]
      = "/cache/acme/app/" ++ hasher "./node_modules" "main" ∧
    hasher "./node_modules" "main" = "133195e0d9ca69d83172db7ce41e7653" :=
  ⟨rfl, rfl⟩

/-- C7. Rebuild and restore address the same cache entry: the call
`ProcessRebuild` makes for the mount at a position of the list is the store of
that mount at `filepath.Join(p.Path, p.Repo, hasher(mount, p.Branch))`, and the
call `ProcessRestore` makes for it is the fetch of the same remote path into
that mount; when both phases succeed they make these calls for every mount.
For `Path = "/cache"`, `Repo = "acme/app"`, `Mount = ["./node_modules"]`,
`Branch = "main"` the remote path of both is `/cache/acme/app/` followed by
`hasher("./node_modules", "main")`. -/
theorem rebuild_restore_same_remote_path {σ : Type} (env : Env σ) (p : Plugin)
    (c c2 : σ) :
    (∀ (i : Nat) (evb evs : Event),
      (ProcessRebuild env p c).trace[i]? = some evb →
      (ProcessRestore env p c2).trace[i]? = some evs →
      ∃ (hi : i < p.Mount.length),
        evb.call = Call.rebuildCmd p.Mount[i]
          (filepathJoin [p.Path, p.Repo, hasher p.Mount[i] p.Branch]) ∧
        evs.call = Call.restoreCmd
          (filepathJoin [p.Path, p.Repo, hasher p.Mount[i] p.Branch]) p.Mount[i]) ∧
    ((ProcessRebuild env p c).err = none →
      (ProcessRebuild env p c).trace.map Event.call
        = p.Mount.map (fun mount => Call.rebuildCmd mount (filepathJoin [p.Path, p.Repo, hasher mount p.Branch]))) ∧
    ((ProcessRestore env p c2).err = none →
      (ProcessRestore env p c2).trace.map Event.call
        = p.Mount.map (fun mount => Call.restoreCmd (filepathJoin [p.Path, p.Repo, hasher mount p.Branch]) mount)) ∧
    (p.Path = "/cache" → p.Repo = "acme/app" → p.Mount = ["./node_modules"] →
      p.Branch = "main" →
      (ProcessRebuild env p c).trace.map Event.call
        = [Call.rebuildCmd "./node_modules"
            ("/cache/acme/app/" ++ hasher "./node_modules" "main")] ∧
      (ProcessRestore env p c2).trace.map Event.call
        = [Call.restoreCmd ("/cache/acme/app/" ++ hasher "./node_modules" "main")
            "./node_modules"]) := by
  obtain ⟨_, hbcalls, _, hbok, _⟩ := ProcessRebuild_in_order env p c
  obtain ⟨_, hscalls, _, hsok, _⟩ := ProcessRestore_in_order env p c2
  refine ⟨?_, ?_, ?_, ?_⟩
  · intro i evb evs hb hs
    have hb2 : ((ProcessRebuild env p c).trace.map Event.call)[i]? = some evb.call := by
      rw [List.getElem?_map, hb]
      rfl
    have hs2 : ((ProcessRestore env p c2).trace.map Event.call)[i]? = some evs.call := by
      rw [List.getElem?_map, hs]
      rfl
    rw [hbcalls] at hb2
    rw [hscalls] at hs2
    obtain ⟨hi, hbi⟩ := getElem?_map_take _ _ _ _ _ hb2
    obtain ⟨_, hsi⟩ := getElem?_map_take _ _ _ _ _ hs2
    exact ⟨hi, hbi.symm, hsi.symm⟩
  · intro hnone
    have hlen := (hbok hnone).1
    rw [hlen, List.take_length] at hbcalls
    exact hbcalls
  · intro hnone
    have hlen := (hsok hnone).1
    rw [hlen, List.take_length] at hscalls
    exact hscalls
  · intro hPath hRepo hMount hBranch
    have hpath := scenario_remote_path.1
    unfold ProcessRebuild ProcessRestore
    rw [hMount, processRebuildLoop_singleton, processRestoreLoop_singleton, hPath, hRepo,
      hBranch, hpath]
    exact ⟨rfl, rfl⟩

set_option maxRecDepth 100000 in
/-- C7, on the scenario of the specification: the store and the fetch of
`./node_modules` both go to `/cache/acme/app/133195e0d9ca69d83172db7ce41e7653`. -/
theorem rebuild_restore_same_remote_path_witness :
    (ProcessRebuild failOnB scenarioPlugin 0).trace.map Event.call
      = [Call.rebuildCmd "./node_modules" "/cache/acme/app/133195e0d9ca69d83172db7ce41e7653"] ∧
    (ProcessRestore failOnB scenarioPlugin 1).trace.map Event.call
      = [Call.restoreCmd "/cache/acme/app/133195e0d9ca69d83172db7ce41e7653" "./node_modules"] := by
  have h := (rebuild_restore_same_remote_path failOnB scenarioPlugin 0 1).2.2.2 rfl rfl rfl rfl
  rw [h.1, h.2]
  exact ⟨rfl, rfl⟩

/-- C6, as stated, fails: with the SFTP backend configured and constructed and
the store of `B` failing during the rebuild, `Exec` returns `nil`. -/
theorem Exec_returns_nil_on_failed_rebuild :
    oneAndOnlyOne [(examplePlugin true false).SFTP, (examplePlugin true false).S3]
      = (0, "sftp-config", none) ∧
    failOnB.sftpFromJSON "sftp-config" = Except.ok 0 ∧
    (ProcessRebuild failOnB (examplePlugin true false) 0).err = some ⟨"store failed"⟩ ∧
    (Exec failOnB (examplePlugin true false)).outcome = Outcome.returned none := by
  refine ⟨by decide, rfl, ?_, ?_⟩
  · exact (ProcessRebuild_of_second_fails failOnB (examplePlugin true false) 0
      "A" "B" "C" 1 2 ⟨"store failed"⟩ rfl rfl rfl).2
  · rw [Exec_of_sftp failOnB (examplePlugin true false) 0 (by decide) rfl rfl]
    exact execPhases_outcome _ _ _ _

/-- C6, amended. When exactly one backend is configured and its construction
succeeds, `Exec` returns `nil` whether or not a requested phase fails: the error
of a phase is written to the log, not returned. When one phase alone is
requested and fails, its error is logged; when no requested phase fails,
nothing is logged. -/
theorem Exec_returns_nil_and_logs {σ : Type} (env : Env σ) (p : Plugin) (c : σ)
    (h : (p.SFTP ≠ "" ∧ p.S3 = "" ∧ env.sftpFromJSON p.SFTP = Except.ok c) ∨
      (p.SFTP = "" ∧ p.S3 ≠ "" ∧ env.s3FromJSON p.S3 = Except.ok c)) :
    (Exec env p).outcome = Outcome.returned none ∧
    (p.Rebuild = true → p.Restore = false → ∀ e, (ProcessRebuild env p c).err = some e →
      (⟨Call.logPrintln e, none⟩ : Event) ∈ (Exec env p).trace) ∧
    (p.Rebuild = false → p.Restore = true → ∀ e, (ProcessRestore env p c).err = some e →
      (⟨Call.logPrintln e, none⟩ : Event) ∈ (Exec env p).trace) ∧
    ((p.Rebuild = true → (ProcessRebuild env p c).err = none) →
      (p.Restore = true →
        (ProcessRestore env p
          (if p.Rebuild = true then (ProcessRebuild env p c).cache else c)).err = none) →
      ∀ ev ∈ (Exec env p).trace, ∀ e, ev.call ≠ Call.logPrintln e) := by
  have hrb : ∀ (c : σ), ∀ ev ∈ (ProcessRebuild env p c).trace,
      ∀ e, ev.call ≠ Call.logPrintln e := by
    intro c ev hev e
    obtain ⟨mount, path, hcall⟩ := ProcessRebuild_calls env p c ev hev
    rw [hcall]
    simp
  have hrs : ∀ (c : σ), ∀ ev ∈ (ProcessRestore env p c).trace,
      ∀ e, ev.call ≠ Call.logPrintln e := by
    intro c ev hev e
    obtain ⟨path, mount, hcall⟩ := ProcessRestore_calls env p c ev hev
    rw [hcall]
    simp
  have main : ∀ trace0 : List Event, (∀ ev ∈ trace0, ∀ e, ev.call ≠ Call.logPrintln e) →
      Exec env p = execPhases env p c trace0 →
      (Exec env p).outcome = Outcome.returned none ∧
      (p.Rebuild = true → p.Restore = false → ∀ e, (ProcessRebuild env p c).err = some e →
        (⟨Call.logPrintln e, none⟩ : Event) ∈ (Exec env p).trace) ∧
      (p.Rebuild = false → p.Restore = true → ∀ e, (ProcessRestore env p c).err = some e →
        (⟨Call.logPrintln e, none⟩ : Event) ∈ (Exec env p).trace) ∧
      ((p.Rebuild = true → (ProcessRebuild env p c).err = none) →
        (p.Restore = true →
          (ProcessRestore env p
            (if p.Rebuild = true then (ProcessRebuild env p c).cache else c)).err = none) →
        ∀ ev ∈ (Exec env p).trace, ∀ e, ev.call ≠ Call.logPrintln e) := by
    intro trace0 h0 hexec
    obtain ⟨t00, t10, t01, t11⟩ := execPhases_trace env p c trace0
    rw [hexec]
    refine ⟨execPhases_outcome _ _ _ _, ?_, ?_, ?_⟩
    · intro hb hs e he
      rw [t10 hb hs, he]
      simp
    · intro hb hs e he
      rw [t01 hb hs, he]
      simp
    · intro hbok hsok ev hev e
      cases hb : p.Rebuild <;> cases hs : p.Restore
      · rw [t00 hb hs] at hev
        rcases List.mem_append.1 hev with hev | hev
        · exact h0 ev hev e
        · simp only [List.mem_singleton] at hev
          rw [hev]
          simp
      · have hnone := hsok hs
        simp only [hb, Bool.false_eq_true, if_false] at hnone
        rw [t01 hb hs, hnone] at hev
        simp only [List.append_nil, List.mem_append, List.mem_singleton] at hev
        rcases hev with (hev | hev) | hev
        · exact h0 ev hev e
        · exact hrs _ ev hev e
        · rw [hev]
          simp
      · have hnone := hbok hb
        rw [t10 hb hs, hnone] at hev
        simp only [List.append_nil, List.mem_append, List.mem_singleton] at hev
        rcases hev with (hev | hev) | hev
        · exact h0 ev hev e
        · exact hrb _ ev hev e
        · rw [hev]
          simp
      · have hnone := hsok hs
        simp only [hb, if_true] at hnone
        rw [t11 hb hs, hnone] at hev
        simp only [List.append_nil, List.mem_append, List.mem_singleton] at hev
        rcases hev with ((hev | hev) | hev) | hev
        · exact h0 ev hev e
        · exact hrb _ ev hev e
        · exact hrs _ ev hev e
        · rw [hev]
          simp
  rcases h with ⟨h1, h2, h3⟩ | ⟨h1, h2, h3⟩
  · apply main _ _ (Exec_of_sftp env p c h1 h2 h3)
    intro ev hev e
    simp only [List.mem_singleton] at hev
    rw [hev]
    simp
  · apply main _ _ (Exec_of_s3 env p c h1 h2 h3)
    intro ev hev e
    simp only [List.mem_singleton] at hev
    rw [hev]
    simp

/-- C6, amended, on a rebuild whose store of `B` fails: `Exec` returns `nil`
and the error of `B` is in the log. -/
theorem Exec_returns_nil_and_logs_witness :
    (Exec failOnB (examplePlugin true false)).outcome = Outcome.returned none ∧
    (⟨Call.logPrintln ⟨"store failed"⟩, none⟩ : Event)
      ∈ (Exec failOnB (examplePlugin true false)).trace :=
  ⟨(Exec_returns_nil_and_logs failOnB (examplePlugin true false) 0
      (Or.inl ⟨by decide, rfl, rfl⟩)).1,
   (Exec_returns_nil_and_logs failOnB (examplePlugin true false) 0
      (Or.inl ⟨by decide, rfl, rfl⟩)).2.1 rfl rfl ⟨"store failed"⟩
      (by rw [ProcessRebuild, examplePlugin]; rfl)⟩

end DroneCache
